import Mathlib

/-!
Shallow embedding of the upload pipeline of `journald-to-cloudwatch`
(`src/cloudwatch.rs`, `src/configuration.rs`, `src/ec2.rs`).

The event type mirrors the AWS SDK's `InputLogEvent`, whose `message` and
`timestamp` fields are both `Option`-typed.  Timestamps are `i64`
milliseconds, embedded as `Int`; message byte counts use `String.utf8ByteSize`
to match Rust's `String::len` (UTF-8 byte length).
-/

namespace JournaldToCloudwatch

/-- The event record `aws_sdk_cloudwatchlogs::model::InputLogEvent`: an optional UTF-8 message
and an optional timestamp in integer milliseconds. -/
structure InputLogEvent where
  message : Option String
  timestamp : Option Int
  deriving DecidableEq

/-- Rust's derived `PartialOrd`/`Ord` strict `<` on `Option<i64>`:
`None` is less than every `Some`. -/
def optLt : Option Int → Option Int → Bool
  | none, none => false
  | none, some _ => true
  | some _, none => false
  | some a, some b => a < b

/-- Rust's derived `Ord` non-strict `≤` on `Option<i64>`:
`None` is least. -/
def optLe : Option Int → Option Int → Bool
  | none, _ => true
  | some _, none => false
  | some a, some b => a ≤ b

/-- The comparator used by `sorted.sort_by(|a, b| a.timestamp.cmp(&b.timestamp))`
in `do_group_events`, as a boolean `≤` (Rust's `sort_by` is a stable sort). -/
def eventLe (a b : InputLogEvent) : Bool :=
  optLe a.timestamp b.timestamp

/-- The constant `sixteen` in `do_group_events`: sixteen hours in milliseconds
(`Duration::from_secs(57600).as_millis()`). -/
def sixteen : Int := 57600000

/-- The `too_new` test of `do_group_events`, deciding whether `event` may not
join the group whose first element is `first`. -/
def tooNew (event first : InputLogEvent) : Bool :=
  match event.timestamp with
  | some ts =>
    match first.timestamp with
    | some fts => ts - sixteen > fts
    | none => true
  | none => true

/-- One iteration of the loop body of `do_group_events`: `groups.last()` is
inspected; an empty groups list, or a too-new event, starts a fresh singleton
group, otherwise the event is appended to the popped last group which is then
pushed back.  (The `some []` case is unreachable: the source unwraps
`existing_group.first()` and every group it ever pushes is non-empty.) -/
def addEvent (groups : List (List InputLogEvent)) (event : InputLogEvent) :
    List (List InputLogEvent) :=
  match groups.getLast? with
  | none => groups ++ [[event]]
  | some existing_group =>
    match existing_group.head? with
    | none => groups ++ [[event]]
    | some first =>
      if tooNew event first then
        groups ++ [[event]]
      else
        groups.dropLast ++ [existing_group ++ [event]]

/-- The stable sort at the head of `do_group_events`
(`sorted.sort_by(|a, b| a.timestamp.cmp(&b.timestamp))`); Rust's `sort_by`
is stable, as is `List.mergeSort`. -/
def sortEvents (events : List InputLogEvent) : List InputLogEvent :=
  events.mergeSort eventLe

/-- The function `do_group_events` from `src/cloudwatch.rs`: stable-sort by timestamp, then
fold the events into 16-hour groups. -/
def do_group_events (events : List InputLogEvent) :
    List (List InputLogEvent) :=
  (sortEvents events).foldl addEvent []

/-- The function `get_event_num_bytes` from `src/cloudwatch.rs`: UTF-8 byte length of the
message plus 26, or 26 when the message is absent (`m.len()` in Rust counts
UTF-8 bytes). -/
def get_event_num_bytes (event : InputLogEvent) : Nat :=
  match event.message with
  | some m => m.utf8ByteSize + 26
  | none => 26

/-- The batcher `UploadThreadState<U>` from `src/cloudwatch.rs`, with the uploader `U`
modelled as the list of batches passed to `Uploader::upload` so far (exactly
what the test double `MockUploader` records), and the configuration reduced to
the one field `push` reads, `is_debug_mode_enabled`. -/
structure UploadThreadState where
  is_debug_mode_enabled : Bool
  uploaded : List (List InputLogEvent)
  events : List InputLogEvent
  first_timestamp : Option Int
  last_timestamp : Option Int
  num_pending_bytes : Nat
  deriving DecidableEq

/-- The constructor `UploadThreadState::new`: empty pending state over a fresh uploader. -/
def UploadThreadState.new (dbg : Bool) : UploadThreadState :=
  { is_debug_mode_enabled := dbg
    uploaded := []
    events := []
    first_timestamp := none
    last_timestamp := none
    num_pending_bytes := 0 }

/-- The method `UploadThreadState::flush`: a no-op when `events` is empty, otherwise the
pending events are handed to the uploader as one batch and the accumulator is
reset. -/
def UploadThreadState.flush (s : UploadThreadState) : UploadThreadState :=
  if s.events = [] then s
  else
    { s with
      uploaded := s.uploaded ++ [s.events]
      events := []
      first_timestamp := none
      last_timestamp := none
      num_pending_bytes := 0 }

/-- The method `UploadThreadState::push`: the ordering, size and count flush triggers are
evaluated in order, each firing a full `flush`, and then the event is appended
to the pending accumulator.  The ordering trigger compares
`event.timestamp < Some(last_timestamp)` with Rust's `Option` order. -/
def UploadThreadState.push (s : UploadThreadState) (event : InputLogEvent) :
    UploadThreadState :=
  let s1 :=
    match s.last_timestamp with
    | some last_timestamp =>
      if optLt event.timestamp (some last_timestamp) then s.flush else s
    | none => s
  let event_num_bytes := get_event_num_bytes event
  let s2 :=
    if s1.num_pending_bytes + event_num_bytes > 1048576 then s1.flush else s1
  let max_events : Nat := if s2.is_debug_mode_enabled then 1 else 100
  let s3 := if s2.events.length + 1 ≥ max_events then s2.flush else s2
  { s3 with
    first_timestamp :=
      if s3.first_timestamp.isNone then event.timestamp else s3.first_timestamp
    last_timestamp := event.timestamp
    num_pending_bytes := s3.num_pending_bytes + event_num_bytes
    events := s3.events ++ [event] }

/-- Pushing a list of events in order into a fresh state (`dbg` is the
configuration's `is_debug_mode_enabled`). -/
def applyPushes (dbg : Bool) (l : List InputLogEvent) : UploadThreadState :=
  l.foldl UploadThreadState.push (UploadThreadState.new dbg)

/-- The batcher states that arise at runtime: the fresh state followed by any
interleaving of `push` and `flush` calls. -/
inductive Reachable (dbg : Bool) : UploadThreadState → Prop where
  | init : Reachable dbg (UploadThreadState.new dbg)
  | push (s : UploadThreadState) (e : InputLogEvent) :
      Reachable dbg s → Reachable dbg (s.push e)
  | flush (s : UploadThreadState) :
      Reachable dbg s → Reachable dbg s.flush

/-- The error type `InstanceNameError` from `src/ec2.rs` (the SDK error payload reduced to a
string). -/
inductive InstanceNameError where
  | DescribeInstancesError (msg : String)
  | MissingReservations
  | EmptyReservations
  | MissingInstances
  | EmptyInstances
  | MissingTags
  | MissingNameTag
  deriving DecidableEq

/-- The function `get_log_stream_name` from `src/configuration.rs`, with the two network
calls `ec2::get_instance_id` and `ec2::get_instance_name` abstracted as the
results they return on this run: a name from a successful lookup, and the
literal `"unknown"` on every failure path. -/
def get_log_stream_name (instance_id : Except String String)
    (get_instance_name : String → Except InstanceNameError String) : String :=
  match instance_id with
  | .ok id =>
    match get_instance_name id with
    | .ok name => name
    | .error _ => "unknown"
  | .error _ => "unknown"


/-- The invariant maintained for every group built by `do_group_events`: the
group is non-empty, internally sorted, and either a lone absent-timestamp
event or headed by an event at `ft` with every member's timestamp in
`[ft, ft + sixteen]`. -/
def GroupOk (g : List InputLogEvent) : Prop :=
  g.Pairwise (fun a b => eventLe a b = true) ∧
  ∃ first rest, g = first :: rest ∧
    ((first.timestamp = none ∧ rest = []) ∨
      ∃ ft, first.timestamp = some ft ∧
        ∀ e ∈ g, ∃ t, e.timestamp = some t ∧ ft ≤ t ∧ t ≤ ft + sixteen)

lemma eventLe_trans : ∀ a b c : InputLogEvent,
    eventLe a b = true → eventLe b c = true → eventLe a c = true := by
  intro a b c hab hbc
  unfold eventLe optLe at *
  cases ha : a.timestamp <;> cases hb : b.timestamp <;> cases hc : c.timestamp <;>
    simp_all
  omega

lemma eventLe_total : ∀ a b : InputLogEvent,
    eventLe a b || eventLe b a := by
  intro a b
  unfold eventLe optLe
  cases a.timestamp <;> cases b.timestamp <;> simp
  omega

lemma sorted_sortEvents (l : List InputLogEvent) :
    (sortEvents l).Pairwise (fun a b => eventLe a b = true) := by
  have h := List.sorted_mergeSort eventLe_trans eventLe_total l
  exact h

lemma flatten_addEvent (gs : List (List InputLogEvent)) (e : InputLogEvent) :
    (addEvent gs e).flatten = gs.flatten ++ [e] := by
  unfold addEvent
  cases hlast : gs.getLast? with
  | none =>
    have : gs = [] := List.getLast?_eq_none_iff.mp hlast
    subst this
    simp
  | some existing =>
    obtain ⟨ys, rfl⟩ := List.getLast?_eq_some_iff.mp hlast
    cases hhead : existing.head? with
    | none => simp [hhead]
    | some first =>
      by_cases hnew : tooNew e first
      · simp [hhead, hnew]
      · simp [hhead, hnew]

lemma flatten_foldl_addEvent :
    ∀ (l : List InputLogEvent) (gs : List (List InputLogEvent)),
      (l.foldl addEvent gs).flatten = gs.flatten ++ l := by
  intro l
  induction l with
  | nil => intro gs; simp
  | cons e l ih =>
    intro gs
    simp only [List.foldl_cons]
    rw [ih, flatten_addEvent]
    simp


lemma groupOk_singleton (e : InputLogEvent) : GroupOk [e] := by
  refine ⟨by simp, e, [], rfl, ?_⟩
  cases ht : e.timestamp with
  | none => exact Or.inl ⟨rfl, rfl⟩
  | some t =>
    refine Or.inr ⟨t, rfl, ?_⟩
    intro x hx
    simp at hx
    subst hx
    refine ⟨t, ht, le_refl t, ?_⟩
    unfold sixteen
    omega

lemma groupOk_extend (g : List InputLogEvent) (e first : InputLogEvent)
    (hok : GroupOk g) (hhead : g.head? = some first)
    (hnew : tooNew e first = false)
    (hle : ∀ x ∈ g, eventLe x e = true) :
    GroupOk (g ++ [e]) := by
  obtain ⟨hpw, f0, rest, rfl, hcases⟩ := hok
  have hf0 : f0 = first := by simpa using hhead
  subst hf0
  unfold tooNew at hnew
  cases hts : e.timestamp with
  | none => rw [hts] at hnew; simp at hnew
  | some ts =>
    rw [hts] at hnew
    cases hfts : f0.timestamp with
    | none => rw [hfts] at hnew; simp at hnew
    | some fts =>
      rw [hfts] at hnew
      simp at hnew
      rcases hcases with ⟨hnone, _⟩ | ⟨ft, hft, hall⟩
      · rw [hnone] at hfts; cases hfts
      · have hfteq : ft = fts := by rw [hft] at hfts; injection hfts
        subst hfteq
        constructor
        · rw [List.pairwise_append]
          refine ⟨hpw, by simp, ?_⟩
          intro a ha b hb
          simp at hb
          subst hb
          exact hle a ha
        · refine ⟨f0, rest ++ [e], by simp, Or.inr ⟨ft, hft, ?_⟩⟩
          intro x hx
          rcases List.mem_append.mp hx with hx | hx
          · exact hall x hx
          · have hxe : e = x := (List.mem_singleton.mp hx).symm
            subst hxe
            have hfle : eventLe f0 e = true := hle f0 (by simp)
            unfold eventLe optLe at hfle
            rw [hft, hts] at hfle
            simp at hfle
            exact ⟨ts, hts, hfle, by omega⟩

lemma addEvent_groupOk (gs : List (List InputLogEvent)) (e : InputLogEvent)
    (hgs : ∀ g ∈ gs, GroupOk g)
    (hle : ∀ g ∈ gs, ∀ x ∈ g, eventLe x e = true) :
    ∀ g ∈ addEvent gs e, GroupOk g := by
  intro g hg
  unfold addEvent at hg
  cases hlast : gs.getLast? with
  | none =>
    rw [hlast] at hg
    simp at hg
    rcases hg with hg | hg
    · exact hgs g (by rw [List.getLast?_eq_none_iff.mp hlast] at hg; cases hg)
    · subst hg; exact groupOk_singleton e
  | some existing =>
    rw [hlast] at hg
    simp only at hg
    have hmem : existing ∈ gs := List.mem_of_getLast?_eq_some hlast
    cases hhead : existing.head? with
    | none =>
      rw [hhead] at hg
      simp only at hg
      rcases List.mem_append.mp hg with hg | hg
      · exact hgs g hg
      · simp at hg; subst hg; exact groupOk_singleton e
    | some first =>
      rw [hhead] at hg
      simp only at hg
      by_cases hnew : tooNew e first
      · rw [if_pos hnew] at hg
        rcases List.mem_append.mp hg with hg | hg
        · exact hgs g hg
        · simp at hg; subst hg; exact groupOk_singleton e
      · rw [if_neg hnew] at hg
        rcases List.mem_append.mp hg with hg | hg
        · exact hgs g ((List.dropLast_sublist gs).mem hg)
        · have hge : g = existing ++ [e] := List.mem_singleton.mp hg
          subst hge
          exact groupOk_extend existing e first (hgs existing hmem) hhead
            (by simpa using hnew) (hle existing hmem)


lemma addEvent_elem (gs : List (List InputLogEvent)) (e : InputLogEvent)
    (g : List InputLogEvent) (hg : g ∈ addEvent gs e) (x : InputLogEvent)
    (hx : x ∈ g) : (∃ g0 ∈ gs, x ∈ g0) ∨ x = e := by
  have h1 : x ∈ (addEvent gs e).flatten := List.mem_flatten.mpr ⟨g, hg, hx⟩
  rw [flatten_addEvent] at h1
  rcases List.mem_append.mp h1 with h1 | h1
  · exact Or.inl (List.mem_flatten.mp h1)
  · exact Or.inr (List.mem_singleton.mp h1)

lemma foldl_addEvent_groupOk :
    ∀ (l : List InputLogEvent) (gs : List (List InputLogEvent)),
      l.Pairwise (fun a b => eventLe a b = true) →
      (∀ g ∈ gs, GroupOk g) →
      (∀ e ∈ l, ∀ g ∈ gs, ∀ x ∈ g, eventLe x e = true) →
      ∀ g ∈ l.foldl addEvent gs, GroupOk g := by
  intro l
  induction l with
  | nil => intro gs _ hgs _; simpa using hgs
  | cons e l ih =>
    intro gs hpw hgs hfuture
    simp only [List.foldl_cons]
    refine ih (addEvent gs e) (List.Pairwise.sublist (List.sublist_cons_self e l) hpw) ?_ ?_
    · exact addEvent_groupOk gs e hgs (fun g hgmem x hxmem =>
        hfuture e (List.mem_cons_self e l) g hgmem x hxmem)
    · intro e' he' g hgmem x hxmem
      rcases addEvent_elem gs e g hgmem x hxmem with ⟨g0, hg0, hxg0⟩ | hxe
      · exact hfuture e' (List.mem_cons_of_mem e he') g0 hg0 x hxg0
      · subst hxe
        exact (List.pairwise_cons.mp hpw).1 e' he'

lemma do_group_events_groupOk (events : List InputLogEvent) :
    ∀ g ∈ do_group_events events, GroupOk g := by
  unfold do_group_events
  exact foldl_addEvent_groupOk (sortEvents events) [] (sorted_sortEvents events)
    (by intro g hg; cases hg) (by intro e _ g hg; cases hg)

lemma groupOk_span (g : List InputLogEvent) (hok : GroupOk g)
    (e1 : InputLogEvent) (he1 : e1 ∈ g) (e2 : InputLogEvent) (he2 : e2 ∈ g)
    (t1 t2 : Int) (h1 : e1.timestamp = some t1) (h2 : e2.timestamp = some t2) :
    t1 - t2 ≤ sixteen := by
  obtain ⟨_, first, rest, rfl, hcases⟩ := hok
  rcases hcases with ⟨hnone, hrest⟩ | ⟨ft, _, hall⟩
  · subst hrest
    have : e1 = first := List.mem_singleton.mp he1
    subst this
    rw [hnone] at h1
    cases h1
  · obtain ⟨u1, hu1, hlo1, hhi1⟩ := hall e1 he1
    obtain ⟨u2, hu2, hlo2, hhi2⟩ := hall e2 he2
    rw [h1] at hu1
    rw [h2] at hu2
    injection hu1 with hu1
    injection hu2 with hu2
    omega


/-- C1: within each group of the 16-hour partitioner the timestamps span at
most 57_600_000 ms, and the concatenation of the groups is the input stably
sorted by timestamp ascending. -/
theorem do_group_events_span_and_concat (events : List InputLogEvent) :
    (∀ g ∈ do_group_events events, ∀ e1 ∈ g, ∀ e2 ∈ g, ∀ t1 t2 : Int,
      e1.timestamp = some t1 → e2.timestamp = some t2 →
        t1 - t2 ≤ 57600000) ∧
    (do_group_events events).flatten = sortEvents events := by
  constructor
  · intro g hg e1 he1 e2 he2 t1 t2 h1 h2
    exact groupOk_span g (do_group_events_groupOk events g hg) e1 he1 e2 he2 t1 t2 h1 h2
  · unfold do_group_events
    rw [flatten_foldl_addEvent]
    simp

theorem do_group_events_span_and_concat_witness :
    ((10 : Int) - 0 ≤ 57600000) ∧
    (do_group_events [⟨some "a", some 0⟩, ⟨some "b", some 10⟩]).flatten =
      sortEvents [⟨some "a", some 0⟩, ⟨some "b", some 10⟩] := by
  have h := do_group_events_span_and_concat
    [⟨some "a", some 0⟩, ⟨some "b", some 10⟩]
  have hg : do_group_events [⟨some "a", some 0⟩, ⟨some "b", some 10⟩] =
      [[⟨some "a", some 0⟩, ⟨some "b", some 10⟩]] := by
    simp [do_group_events, sortEvents, List.mergeSort, eventLe, optLe,
      addEvent, tooNew, sixteen]
  refine ⟨?_, h.2⟩
  refine h.1 [⟨some "a", some 0⟩, ⟨some "b", some 10⟩] ?_
    ⟨some "b", some 10⟩ (by simp) ⟨some "a", some 0⟩ (by simp)
    10 0 rfl rfl
  rw [hg]
  simp

/-- C6 counterexample: on `[{ts 5}, {no ts}]` the stable sort puts the
absent-timestamp event first, not after the present-timestamp one as the
claim states. -/
theorem sort_absent_ts_cex :
    sortEvents [⟨some "a", some 5⟩, ⟨some "b", none⟩] =
      [⟨some "b", none⟩, ⟨some "a", some 5⟩] ∧
    sortEvents [⟨some "a", some 5⟩, ⟨some "b", none⟩] ≠
      [⟨some "a", some 5⟩, ⟨some "b", none⟩] := by
  have h : sortEvents [⟨some "a", some 5⟩, ⟨some "b", none⟩] =
      [⟨some "b", none⟩, ⟨some "a", some 5⟩] := by
    simp [sortEvents, List.mergeSort, eventLe, optLe]
  exact ⟨h, by rw [h]; simp⟩

/-- C6 amended: in the partitioner's sort order, events with an absent
timestamp sort as if OLDER than any present timestamp: whenever a later
element of the sorted list has an absent timestamp, every earlier element
does too. -/
theorem sort_absent_ts_first (events : List InputLogEvent) :
    (sortEvents events).Pairwise
      (fun a b => b.timestamp = none → a.timestamp = none) := by
  refine (sorted_sortEvents events).imp ?_
  intro a b hab hb
  unfold eventLe optLe at hab
  rw [hb] at hab
  cases ha : a.timestamp with
  | none => rfl
  | some t => rw [ha] at hab; simp at hab


lemma foldl_addEvent_single (first : InputLogEvent) (ft : Int)
    (hft : first.timestamp = some ft) :
    ∀ (l pre : List InputLogEvent),
      (∀ e ∈ l, ∃ t, e.timestamp = some t ∧ t ≤ ft + sixteen) →
      l.foldl addEvent [first :: pre] = [first :: (pre ++ l)] := by
  intro l
  induction l with
  | nil => intro pre _; simp
  | cons e l ih =>
    intro pre hbound
    obtain ⟨t, ht, hle⟩ := hbound e (List.mem_cons_self e l)
    have hstep : addEvent [first :: pre] e = [first :: (pre ++ [e])] := by
      have hnew : tooNew e first = false := by
        unfold tooNew
        rw [ht, hft]
        simp
        omega
      simp [addEvent, hnew]
    simp only [List.foldl_cons, hstep]
    rw [ih (pre ++ [e]) (fun x hx => hbound x (List.mem_cons_of_mem e hx))]
    simp

/-- C8: applying the 16-hour partitioner to any one of its own output groups
returns that group as the single group. -/
theorem do_group_events_idempotent (events : List InputLogEvent)
    (g : List InputLogEvent) (hg : g ∈ do_group_events events) :
    do_group_events g = [g] := by
  have hok := do_group_events_groupOk events g hg
  obtain ⟨hpw, first, rest, rfl, hcases⟩ := hok
  have hsort : sortEvents (first :: rest) = first :: rest :=
    List.mergeSort_of_sorted hpw
  unfold do_group_events
  rw [hsort]
  simp only [List.foldl_cons]
  have hfirststep : addEvent [] first = [[first]] := by simp [addEvent]
  rw [hfirststep]
  rcases hcases with ⟨_, hrest⟩ | ⟨ft, hft, hall⟩
  · subst hrest; simp
  · have := foldl_addEvent_single first ft hft rest []
      (fun e he => by
        obtain ⟨t, ht, _, hhi⟩ := hall e (List.mem_cons_of_mem first he)
        exact ⟨t, ht, hhi⟩)
    simpa using this

theorem do_group_events_idempotent_witness :
    do_group_events [(⟨some "a", some 0⟩ : InputLogEvent)] =
      [[⟨some "a", some 0⟩]] := by
  refine do_group_events_idempotent [⟨some "a", some 0⟩] [⟨some "a", some 0⟩] ?_
  have hg : do_group_events [(⟨some "a", some 0⟩ : InputLogEvent)] =
      [[⟨some "a", some 0⟩]] := by
    simp [do_group_events, sortEvents, addEvent]
  rw [hg]
  simp

/-- C9: the byte weight of an event is the UTF-8 byte length of its message
plus 26, and 26 when the message is absent. -/
theorem get_event_num_bytes_formula (e : InputLogEvent) :
    (∀ m, e.message = some m → get_event_num_bytes e = m.utf8ByteSize + 26) ∧
    (e.message = none → get_event_num_bytes e = 26) := by
  constructor
  · intro m hm
    unfold get_event_num_bytes
    rw [hm]
  · intro hm
    unfold get_event_num_bytes
    rw [hm]

theorem get_event_num_bytes_formula_witness :
    get_event_num_bytes ⟨some "ab", none⟩ = "ab".utf8ByteSize + 26 ∧
    get_event_num_bytes ⟨none, some 3⟩ = 26 :=
  ⟨(get_event_num_bytes_formula ⟨some "ab", none⟩).1 "ab" rfl,
   (get_event_num_bytes_formula ⟨none, some 3⟩).2 rfl⟩


lemma flush_events (s : UploadThreadState) : s.flush.events = [] := by
  unfold UploadThreadState.flush
  split
  · assumption
  · rfl

lemma flush_bytes_le (s : UploadThreadState) :
    s.flush.num_pending_bytes ≤ s.num_pending_bytes := by
  unfold UploadThreadState.flush
  split
  · exact le_refl _
  · exact Nat.zero_le _

lemma flush_is_debug (s : UploadThreadState) :
    s.flush.is_debug_mode_enabled = s.is_debug_mode_enabled := by
  unfold UploadThreadState.flush
  split <;> rfl

lemma push_is_debug (s : UploadThreadState) (e : InputLogEvent) :
    (s.push e).is_debug_mode_enabled = s.is_debug_mode_enabled := by
  unfold UploadThreadState.push
  have hfd := flush_is_debug
  cases hl : s.last_timestamp <;>
    (simp only []
     split_ifs <;> simp_all)

lemma push_bounds (s : UploadThreadState) (e : InputLogEvent) :
    ((s.push e).num_pending_bytes ≤ 1048576 ∨ (s.push e).events.length = 1) ∧
    (s.push e).events.length ≤ (if s.is_debug_mode_enabled then 1 else 99) := by
  unfold UploadThreadState.push
  have hfe := flush_events
  have hfb := flush_bytes_le
  have hfd := flush_is_debug
  cases hl : s.last_timestamp <;>
    (simp only []
     split_ifs <;> simp_all
     omega)

lemma applyPushes_append_push (dbg : Bool) (l : List InputLogEvent)
    (e : InputLogEvent) :
    applyPushes dbg (l ++ [e]) = (applyPushes dbg l).push e := by
  unfold applyPushes
  rw [List.foldl_append]
  rfl

lemma applyPushes_is_debug (dbg : Bool) (l : List InputLogEvent) :
    (applyPushes dbg l).is_debug_mode_enabled = dbg := by
  induction l using List.reverseRecOn with
  | nil => rfl
  | append_singleton l e ih => rw [applyPushes_append_push, push_is_debug, ih]

lemma push_bytes_inv (s : UploadThreadState) (e : InputLogEvent)
    (hJ : (s.events = [] → s.num_pending_bytes = 0) ∧
      s.num_pending_bytes ≤ 1048576)
    (hw : get_event_num_bytes e ≤ 1048576) :
    ((s.push e).events = [] → (s.push e).num_pending_bytes = 0) ∧
      (s.push e).num_pending_bytes ≤ 1048576 := by
  unfold UploadThreadState.push UploadThreadState.flush
  obtain ⟨hJ1, hJ2⟩ := hJ
  cases hl : s.last_timestamp <;>
    (simp only []
     split_ifs <;> simp_all)


lemma applyPushes_bytes_inv (dbg : Bool) (l : List InputLogEvent)
    (hw : ∀ x ∈ l, get_event_num_bytes x ≤ 1048576) :
    ((applyPushes dbg l).events = [] →
      (applyPushes dbg l).num_pending_bytes = 0) ∧
    (applyPushes dbg l).num_pending_bytes ≤ 1048576 := by
  induction l using List.reverseRecOn with
  | nil => exact ⟨fun _ => rfl, by simp [applyPushes, UploadThreadState.new]⟩
  | append_singleton l e ih =>
    rw [applyPushes_append_push]
    refine push_bytes_inv _ e ?_ (hw e (by simp))
    exact ih (fun x hx => hw x (List.mem_append.mpr (Or.inl hx)))

lemma push_events_ne_nil (s : UploadThreadState) (e : InputLogEvent) :
    (s.push e).events ≠ [] := by
  unfold UploadThreadState.push
  simp

lemma push_events_debug (s : UploadThreadState) (e : InputLogEvent)
    (hdbg : s.is_debug_mode_enabled = true) :
    (s.push e).events = [e] := by
  unfold UploadThreadState.push
  have hfe := flush_events
  have hfd := flush_is_debug
  cases hl : s.last_timestamp <;>
    (simp only []
     split_ifs <;> simp_all)

lemma push_bytes_strong (s : UploadThreadState) (e : InputLogEvent)
    (hJ : s.events = [] → s.num_pending_bytes = 0) :
    (s.push e).num_pending_bytes ≤ 1048576 ∨
      ((s.push e).events = [e] ∧ get_event_num_bytes e > 1048576) := by
  by_cases hw : get_event_num_bytes e ≤ 1048576
  · left
    unfold UploadThreadState.push UploadThreadState.flush
    cases hl : s.last_timestamp <;>
      (simp only []
       split_ifs <;> simp_all)
  · right
    refine ⟨?_, by omega⟩
    unfold UploadThreadState.push UploadThreadState.flush
    cases hl : s.last_timestamp <;>
      (simp only []
       split_ifs <;> simp_all
       omega)

lemma applyPushes_empty_bytes (dbg : Bool) (l : List InputLogEvent) :
    (applyPushes dbg l).events = [] →
      (applyPushes dbg l).num_pending_bytes = 0 := by
  induction l using List.reverseRecOn with
  | nil => exact fun _ => rfl
  | append_singleton l e _ =>
    rw [applyPushes_append_push]
    exact fun h => absurd h (push_events_ne_nil _ e)

/-- C2 amended: after each push, `pending_bytes ≤ 1_048_576` unless the
pending list is exactly the single just-pushed event whose own byte weight
exceeds 1_048_576; the pending length is at most 99 in normal mode (strictly
below `max_events = 100`) and exactly 1 (`= max_events`, not 0) in debug
mode; and when every pushed event's byte weight is at most 1_048_576,
`pending_bytes ≤ 1_048_576` holds outright. -/
theorem push_sequence_invariant (dbg : Bool) (pre : List InputLogEvent)
    (e : InputLogEvent) :
    ((applyPushes dbg (pre ++ [e])).num_pending_bytes ≤ 1048576 ∨
      ((applyPushes dbg (pre ++ [e])).events = [e] ∧
        get_event_num_bytes e > 1048576)) ∧
    (if dbg then (applyPushes dbg (pre ++ [e])).events.length = 1
      else (applyPushes dbg (pre ++ [e])).events.length ≤ 99) ∧
    ((∀ x ∈ pre ++ [e], get_event_num_bytes x ≤ 1048576) →
      (applyPushes dbg (pre ++ [e])).num_pending_bytes ≤ 1048576) := by
  refine ⟨?_, ?_, ?_⟩
  · rw [applyPushes_append_push]
    exact push_bytes_strong _ e (applyPushes_empty_bytes dbg pre)
  · cases dbg with
    | true =>
      rw [if_pos rfl, applyPushes_append_push,
        push_events_debug (applyPushes true pre) e
          (applyPushes_is_debug true pre)]
      rfl
    | false =>
      rw [if_neg (by simp), applyPushes_append_push]
      have h := (push_bounds (applyPushes false pre) e).2
      rw [applyPushes_is_debug] at h
      simpa using h
  · intro hall
    exact (applyPushes_bytes_inv dbg (pre ++ [e]) hall).2

theorem push_sequence_invariant_witness :
    ((applyPushes false [⟨some "m", some 0⟩]).num_pending_bytes ≤ 1048576 ∨
      ((applyPushes false [⟨some "m", some 0⟩]).events =
          [⟨some "m", some 0⟩] ∧
        get_event_num_bytes ⟨some "m", some 0⟩ > 1048576)) ∧
    (applyPushes false [⟨some "m", some 0⟩]).events.length ≤ 99 ∧
    (applyPushes false [⟨some "m", some 0⟩]).num_pending_bytes ≤ 1048576 ∧
    (applyPushes true [⟨some "m", some 0⟩]).events.length = 1 := by
  have h := push_sequence_invariant false [] ⟨some "m", some 0⟩
  have hd := push_sequence_invariant true [] ⟨some "m", some 0⟩
  exact ⟨h.1, by simpa using h.2.1, h.2.2 (by decide), by simpa using hd.2.1⟩

/-- C2 counterexample: in debug mode (`max_events = 1`), after pushing a
single event the pending list has length 1, so `len(pending) < max_events`
fails. -/
theorem push_invariant_cex :
    ¬ ((applyPushes true [⟨some "m", some 0⟩]).num_pending_bytes ≤ 1048576 ∧
       (applyPushes true [⟨some "m", some 0⟩]).events.length < 1) := by
  decide


lemma reachable_empty_inv (dbg : Bool) (s : UploadThreadState)
    (h : Reachable dbg s) :
    s.events = [] →
      s.first_timestamp = none ∧ s.last_timestamp = none ∧
        s.num_pending_bytes = 0 := by
  induction h with
  | init => exact fun _ => ⟨rfl, rfl, rfl⟩
  | push s e _ _ => exact fun hemp => absurd hemp (push_events_ne_nil s e)
  | flush s _ ih =>
    intro hemp
    by_cases h0 : s.events = []
    · have hfl : s.flush = s := by unfold UploadThreadState.flush; rw [if_pos h0]
      rw [hfl]
      exact ih h0
    · unfold UploadThreadState.flush
      rw [if_neg h0]
      exact ⟨rfl, rfl, rfl⟩

/-- C7: after `flush` returns, the pending list is empty, both timestamps are
`none`, and `pending_bytes = 0`, for every batcher state the process can
reach. -/
theorem flush_clears (dbg : Bool) (s : UploadThreadState)
    (h : Reachable dbg s) :
    s.flush.events = [] ∧ s.flush.first_timestamp = none ∧
      s.flush.last_timestamp = none ∧ s.flush.num_pending_bytes = 0 := by
  by_cases hemp : s.events = []
  · have hfl : s.flush = s := by unfold UploadThreadState.flush; rw [if_pos hemp]
    rw [hfl]
    exact ⟨hemp, reachable_empty_inv dbg s h hemp⟩
  · unfold UploadThreadState.flush
    rw [if_neg hemp]
    exact ⟨rfl, rfl, rfl, rfl⟩

theorem flush_clears_witness :
    (UploadThreadState.new false).flush.events = [] ∧
      (UploadThreadState.new false).flush.first_timestamp = none ∧
      (UploadThreadState.new false).flush.last_timestamp = none ∧
      (UploadThreadState.new false).flush.num_pending_bytes = 0 :=
  flush_clears false (UploadThreadState.new false) Reachable.init

lemma reachable_is_debug (dbg : Bool) (s : UploadThreadState)
    (h : Reachable dbg s) : s.is_debug_mode_enabled = dbg := by
  induction h with
  | init => rfl
  | push s e _ ih => rw [push_is_debug]; exact ih
  | flush s _ ih => rw [flush_is_debug]; exact ih

lemma flush_uploaded_inv (s : UploadThreadState)
    (hlen : s.events.length ≤ 99)
    (hup : ∀ b ∈ s.uploaded, b ≠ [] ∧ b.length ≤ 99) :
    s.flush.events.length ≤ 99 ∧
      ∀ b ∈ s.flush.uploaded, b ≠ [] ∧ b.length ≤ 99 := by
  unfold UploadThreadState.flush
  by_cases hemp : s.events = []
  · rw [if_pos hemp]; exact ⟨hlen, hup⟩
  · rw [if_neg hemp]
    refine ⟨by simp, ?_⟩
    intro b hb
    simp only at hb
    rcases List.mem_append.mp hb with hb | hb
    · exact hup b hb
    · have hbe : b = s.events := List.mem_singleton.mp hb
      subst hbe
      exact ⟨hemp, hlen⟩

lemma push_uploaded_inv (s : UploadThreadState) (e : InputLogEvent)
    (hlen : s.events.length ≤ 99)
    (hup : ∀ b ∈ s.uploaded, b ≠ [] ∧ b.length ≤ 99) :
    ∀ b ∈ (s.push e).uploaded, b ≠ [] ∧ b.length ≤ 99 := by
  have hA := flush_uploaded_inv s hlen hup
  have hB := flush_uploaded_inv s.flush hA.1 hA.2
  have hC := flush_uploaded_inv s.flush.flush hB.1 hB.2
  intro b hb
  unfold UploadThreadState.push at hb
  cases hl : s.last_timestamp <;>
    (rw [hl] at hb
     simp only at hb
     split_ifs at hb <;> simp_all)

lemma reachable_normal_inv (s : UploadThreadState)
    (h : Reachable false s) :
    s.events.length ≤ 99 ∧ ∀ b ∈ s.uploaded, b ≠ [] ∧ b.length ≤ 99 := by
  induction h with
  | init =>
    refine ⟨by simp [UploadThreadState.new], ?_⟩
    intro b hb
    simp [UploadThreadState.new] at hb
  | push s e hs ih =>
    have hdbg : s.is_debug_mode_enabled = false := reachable_is_debug false s hs
    refine ⟨?_, push_uploaded_inv s e ih.1 ih.2⟩
    have hlen := (push_bounds s e).2
    rw [hdbg] at hlen
    simpa using hlen
  | flush s _ ih => exact flush_uploaded_inv s ih.1 ih.2

/-- C10: in normal mode, every batch handed to the uploader's `upload` is
non-empty and holds at most 99 events. -/
theorem uploaded_batch_bounds (s : UploadThreadState)
    (h : Reachable false s) :
    ∀ b ∈ s.uploaded, b ≠ [] ∧ b.length ≤ 99 :=
  (reachable_normal_inv s h).2

theorem uploaded_batch_bounds_witness :
    ([(⟨some "m", some 0⟩ : InputLogEvent)]) ≠ [] ∧
      ([(⟨some "m", some 0⟩ : InputLogEvent)]).length ≤ 99 := by
  have hr : Reachable false
      (((UploadThreadState.new false).push ⟨some "m", some 0⟩).flush) :=
    Reachable.flush _ (Reachable.push _ _ Reachable.init)
  refine uploaded_batch_bounds _ hr [⟨some "m", some 0⟩] ?_
  have hup : (((UploadThreadState.new false).push
      ⟨some "m", some 0⟩).flush).uploaded = [[⟨some "m", some 0⟩]] := by decide
  rw [hup]
  simp


/-- C3 counterexample: in debug mode, pushing one event into the fresh
batcher leaves the uploader with no batches — the triggered flush ran on an
empty pending list and was a no-op — and the event is still buffered when
`push` returns. -/
theorem debug_first_push_cex :
    ((UploadThreadState.new true).push ⟨some "m", some 0⟩).uploaded = [] ∧
      ((UploadThreadState.new true).push ⟨some "m", some 0⟩).events =
        [⟨some "m", some 0⟩] := by
  exact ⟨rfl, rfl⟩

lemma first_push_eq (dbg : Bool) (e : InputLogEvent) :
    (UploadThreadState.new dbg).push e =
      { is_debug_mode_enabled := dbg
        uploaded := []
        events := [e]
        first_timestamp := e.timestamp
        last_timestamp := e.timestamp
        num_pending_bytes := get_event_num_bytes e } := by
  unfold UploadThreadState.push UploadThreadState.flush UploadThreadState.new
  simp

/-- C3 amended: in debug mode the flush triggered by the first push is a
no-op (pending is empty before the append), so the uploader has received
nothing when the first `push` returns and the event is buffered alone; the
event reaches the uploader on the next push: after a second push the uploader
has received exactly the first event, with the second buffered alone. -/
theorem debug_push_delivery (e1 e2 : InputLogEvent) :
    ((UploadThreadState.new true).push e1).uploaded = [] ∧
      ((UploadThreadState.new true).push e1).events = [e1] ∧
      (((UploadThreadState.new true).push e1).push e2).uploaded = [[e1]] ∧
      (((UploadThreadState.new true).push e1).push e2).events = [e2] := by
  rw [first_push_eq]
  refine ⟨rfl, rfl, ?_, ?_⟩ <;>
    (unfold UploadThreadState.push UploadThreadState.flush
     cases e1.timestamp <;>
       (simp only []
        split_ifs <;> simp_all))


/-- C4 counterexample: in debug mode, with one pending event at timestamp 1,
pushing a second event with the equal timestamp 1 is not an ordering
regression (`optLt` is false), yet a flush of the pending events still
happens (the count trigger fires), so "flush occurs iff the new timestamp is
strictly less than `last_ts`" is false. -/
theorem ordering_trigger_cex :
    optLt (some 1) (some 1) = false ∧
      ((UploadThreadState.new true).push ⟨some "a", some 1⟩).last_timestamp =
        some 1 ∧
      (((UploadThreadState.new true).push ⟨some "a", some 1⟩).push
          ⟨some "b", some 1⟩).uploaded = [[⟨some "a", some 1⟩]] := by
  decide

/-- C4 amended: provided the size and count triggers cannot fire (normal
mode, non-empty pending, room in bytes and count), a flush of the pending
events happens on `push e` exactly when `e.timestamp < last_ts`; on a strict
regression the uploader receives the previously pending events and `e` is
left buffered alone, and otherwise (including equal timestamps) nothing is
uploaded and `e` is appended. -/
theorem ordering_trigger (s : UploadThreadState) (e : InputLogEvent)
    (last : Int)
    (hdbg : s.is_debug_mode_enabled = false)
    (hlast : s.last_timestamp = some last)
    (hne : s.events ≠ [])
    (hbytes : s.num_pending_bytes + get_event_num_bytes e ≤ 1048576)
    (hcount : s.events.length + 1 < 100) :
    (optLt e.timestamp (some last) = true →
      (s.push e).uploaded = s.uploaded ++ [s.events] ∧
        (s.push e).events = [e]) ∧
    (optLt e.timestamp (some last) = false →
      (s.push e).uploaded = s.uploaded ∧
        (s.push e).events = s.events ++ [e]) := by
  unfold UploadThreadState.push UploadThreadState.flush
  rw [hlast]
  constructor <;> intro hcond <;>
    (simp only []
     split_ifs <;> simp_all <;> omega)

theorem ordering_trigger_witness :
    ((((UploadThreadState.new false).push ⟨some "a", some 2⟩).push
        ⟨some "b", some 1⟩).uploaded =
      ((UploadThreadState.new false).push ⟨some "a", some 2⟩).uploaded ++
        [((UploadThreadState.new false).push ⟨some "a", some 2⟩).events]) ∧
    ((((UploadThreadState.new false).push ⟨some "a", some 2⟩).push
        ⟨some "b", some 1⟩).events = [⟨some "b", some 1⟩]) :=
  (ordering_trigger ((UploadThreadState.new false).push ⟨some "a", some 2⟩)
    ⟨some "b", some 1⟩ 2 (by decide) (by decide) (by decide) (by decide)
    (by decide)).1 (by decide)

/-- C5 counterexample: when the instance-id fetch succeeds with `"i-0abc"`
but the name lookup fails, the resolved log stream name is the literal
`"unknown"`, not the raw instance identifier. -/
theorem log_stream_name_cex :
    get_log_stream_name (Except.ok "i-0abc")
        (fun _ => Except.error InstanceNameError.MissingNameTag) =
      "unknown" ∧
    get_log_stream_name (Except.ok "i-0abc")
        (fun _ => Except.error InstanceNameError.MissingNameTag) ≠
      "i-0abc" := by
  exact ⟨rfl, by decide⟩

/-- C5 amended: whenever the instance-name lookup fails, the resolved log
stream name is the literal `"unknown"`, even when the instance-id fetch
succeeded. -/
theorem log_stream_name_fallback (instId : String)
    (f : String → Except InstanceNameError String) (err : InstanceNameError)
    (h : f instId = Except.error err) :
    get_log_stream_name (Except.ok instId) f = "unknown" := by
  show (match f instId with
    | Except.ok name => name
    | Except.error _ => "unknown") = "unknown"
  rw [h]

theorem log_stream_name_fallback_witness :
    get_log_stream_name (Except.ok "i-0abc")
        (fun _ => Except.error InstanceNameError.EmptyInstances) =
      "unknown" :=
  log_stream_name_fallback "i-0abc"
    (fun _ => Except.error InstanceNameError.EmptyInstances)
    InstanceNameError.EmptyInstances rfl

end JournaldToCloudwatch
